import Mathlib

/-!
Verification of the gtreap persistent-treap package (treap.go).

The development has two embeddings of the source:

* a pure functional embedding (`GoNode`, `split`, `union`, `join`, `get`,
  `treapMin`, `treapMax`, `visitAscend`, `Treap`) in which Go pointers become
  an inductive tree and `newNode`/`&node{...}` both allocate fresh structure.
  This models the executions in which the `sync.Pool` never returns a
  previously pooled node (`sync.Pool.Get` is allowed to treat the pool as
  empty at any time, and `newNode` falls back to fresh allocation), so all
  functional facts proved here are facts about real executions of the code.

* a heap/pool embedding (`PStore`, `hNewNode`, `hSplit`, `hUnion`, `hJoin`,
  `hUpsert`, `hDelete`, `hGet`) in which nodes live in an explicit store
  indexed by `Nat`, `newNode` pops recycled slots from the pool and
  overwrites them in place, and `nodePool.Put` pushes a slot back.  The pool
  is modelled as a LIFO stack, one legal behaviour of `sync.Pool`; field
  reads and allocations are sequenced exactly as Go evaluates them
  (arguments left to right, deferred `Put`s in LIFO order after the body).
  This embedding exhibits the node-recycling executions in which old treap
  versions are corrupted.

Items are opaque in Go and compared only through the caller-supplied
`Compare`.  Theorems instantiate the comparison with `cmpKey key` for an
arbitrary key extraction `key : ι → α` into a linear order, which models any
lawful three-way comparison (compare-equal items may differ as payloads).
-/

namespace Gtreap

/-- The `node` struct of treap.go: item, priority, left and right child.
`nil` is the nil `*node` pointer. -/
inductive GoNode (ι : Type) where
  | nil : GoNode ι
  | node (item : ι) (priority : Int) (left right : GoNode ι) : GoNode ι
deriving DecidableEq, Repr

namespace GoNode

/-- Number of nodes of a tree (used only as a termination measure). -/
def size : GoNode ι → Nat
  | .nil => 0
  | .node _ _ l r => size l + size r + 1

/-- In-order item sequence of a tree. -/
def inorder : GoNode ι → List ι
  | .nil => []
  | .node i _ l r => inorder l ++ i :: inorder r

/-- Item of the root node, `none` for the nil pointer. -/
def rootItem : GoNode ι → Option ι
  | .nil => none
  | .node i _ _ _ => some i

end GoNode

open GoNode

/-- The three-way comparison induced by a key extraction into a linear
order: `-1` below, `1` above, `0` on equal keys.  This is the shape of any
lawful Go `Compare` function (compare-equal items need not be equal). -/
def cmpKey (key : ι → α) [LinearOrder α] (a b : ι) : Int :=
  if key a < key b then -1 else if key b < key a then 1 else 0

/-- `Get` of treap.go, on the root node: descend by the comparison,
returning the stored item on a compare-equal hit and `none` off the end. -/
def get (cmp : ι → ι → Int) (target : ι) : GoNode ι → Option ι
  | .nil => none
  | .node i _ l r =>
    let c := cmp target i
    if c < 0 then get cmp target l
    else if c > 0 then get cmp target r
    else some i

/-- `Min` of treap.go: follow left children to the end. -/
def treapMin : GoNode ι → Option ι
  | .nil => none
  | .node i _ .nil _ => some i
  | .node _ _ (.node li lp ll lr) _ => treapMin (.node li lp ll lr)

/-- `Max` of treap.go: follow right children to the end. -/
def treapMax : GoNode ι → Option ι
  | .nil => none
  | .node i _ _ .nil => some i
  | .node _ _ _ (.node ri rp rl rr) => treapMax (.node ri rp rl rr)

/-- `split` of treap.go: partition `n` by the split item `s` into
(items below `s`, the compare-equal node or nil, items above `s`).  On a
compare-equal root the middle is the root node itself, children included. -/
def split (cmp : ι → ι → Int) (n : GoNode ι) (s : ι) :
    GoNode ι × GoNode ι × GoNode ι :=
  match n with
  | .nil => (.nil, .nil, .nil)
  | .node i p l r =>
    let c := cmp s i
    if c = 0 then (l, .node i p l r, r)
    else if c < 0 then
      let t3 := split cmp l s
      (t3.1, t3.2.1, .node i p t3.2.2 r)
    else
      let t3 := split cmp r s
      (.node i p l t3.1, t3.2.1, t3.2.2)

/-- `union` of treap.go: merge two treaps.  The root with the higher
priority wins (ties go to `that`); the loser is split at the winner's item.
When `this` wins and the split of `that` has a compare-equal middle node,
the middle's item (from `that`) is placed at the root with `this`'s
priority. -/
def union (cmp : ι → ι → Int) : GoNode ι → GoNode ι → GoNode ι
  | .nil, that => that
  | .node i p l r, .nil => .node i p l r
  | .node i p l r, .node ti tp tl tr =>
    if p > tp then
      let t3 := split cmp (.node ti tp tl tr) i
      match t3.2.1 with
      | .nil => .node i p (union cmp l t3.1) (union cmp r t3.2.2)
      | .node mi _ _ _ => .node mi p (union cmp l t3.1) (union cmp r t3.2.2)
    else
      let t3 := split cmp (.node i p l r) ti
      .node ti tp (union cmp t3.1 tl) (union cmp t3.2.2 tr)
termination_by this that => size this + size that
decreasing_by
  all_goals
    simp_wf
    have hs : ∀ (m : GoNode ι) (s : ι),
        size (split cmp m s).1 + size (split cmp m s).2.2 ≤ size m := by
      intro m s
      induction m with
      | nil => simp [split, size]
      | node a q u v ihu ihv =>
        simp only [split]
        split_ifs <;> simp [size] <;> omega
    have h1 := hs (GoNode.node ti tp tl tr) i
    have h2 := hs (GoNode.node i p l r) ti
    simp [size] at h1 h2 ⊢
    omega

/-- `join` of treap.go: concatenate two trees, every item of `this` below
every item of `that`; the higher-priority root stays on top. -/
def join : GoNode ι → GoNode ι → GoNode ι
  | .nil, that => that
  | .node i p l r, .nil => .node i p l r
  | .node i p l r, .node ti tp tl tr =>
    if p > tp then .node i p l (join r (.node ti tp tl tr))
    else .node ti tp (join (.node i p l r) tl) tr
termination_by this that => size this + size that
decreasing_by
  all_goals
    simp_wf
    simp [size]
    omega

/-- The `Treap` struct of treap.go: a comparison function and a root. -/
structure Treap (ι : Type) where
  compare : ι → ι → Int
  root : GoNode ι

/-- `NewTreap` of treap.go. -/
def NewTreap (c : ι → ι → Int) : Treap ι := ⟨c, .nil⟩

def Treap.Get (t : Treap ι) (target : ι) : Option ι :=
  get t.compare target t.root

def Treap.Min (t : Treap ι) : Option ι := treapMin t.root

def Treap.Max (t : Treap ι) : Option ι := treapMax t.root

/-- Root produced by `Upsert`: union of the old root with a fresh
singleton node carrying the supplied priority. -/
def upsertRoot (cmp : ι → ι → Int) (n : GoNode ι) (item : ι)
    (itemPriority : Int) : GoNode ι :=
  union cmp n (.node item itemPriority .nil .nil)

/-- `Upsert` of treap.go. -/
def Treap.Upsert (t : Treap ι) (item : ι) (itemPriority : Int) : Treap ι :=
  ⟨t.compare, upsertRoot t.compare t.root item itemPriority⟩

/-- Root produced by `Delete`: split at the target, drop the middle, join
the rest. -/
def deleteRoot (cmp : ι → ι → Int) (n : GoNode ι) (target : ι) : GoNode ι :=
  join (split cmp n target).1 (split cmp n target).2.2

/-- `Delete` of treap.go. -/
def Treap.Delete (t : Treap ι) (target : ι) : Treap ι :=
  ⟨t.compare, deleteRoot t.compare t.root target⟩

/-- `visitAscend` of treap.go, instrumented: the visitor is an arbitrary
state transformer `σ → ι → σ × Bool` (covering stateful Go visitors) and
the returned list records, in call order, the items the visitor was called
on.  The `Bool` is the function's Go return value: `false` aborts. -/
def visitAscend (cmp : ι → ι → Int) (visitor : σ → ι → σ × Bool) (pivot : ι) :
    GoNode ι → σ → σ × Bool × List ι
  | .nil, st => (st, true, [])
  | .node i _ l r, st =>
    if cmp pivot i ≤ 0 then
      match visitAscend cmp visitor pivot l st with
      | (st1, false, v1) => (st1, false, v1)
      | (st1, true, v1) =>
        match visitor st1 i with
        | (st2, false) => (st2, false, v1 ++ [i])
        | (st2, true) =>
          match visitAscend cmp visitor pivot r st2 with
          | (st3, b, v2) => (st3, b, v1 ++ i :: v2)
    else visitAscend cmp visitor pivot r st

/-- Reference run of a visitor down a list, stopping after the first
`false`; returns the final state, the continue flag, and the visited
items. -/
def runVisitor (visitor : σ → ι → σ × Bool) : σ → List ι → σ × Bool × List ι
  | st, [] => (st, true, [])
  | st, x :: xs =>
    match visitor st x with
    | (st1, false) => (st1, false, [x])
    | (st1, true) =>
      match runVisitor visitor st1 xs with
      | (st2, b, v) => (st2, b, x :: v)

/-- `VisitAscend` of treap.go: run the visitor over the root. -/
def Treap.VisitAscend {σ ι : Type} (t : Treap ι) (pivot : ι)
    (visitor : σ → ι → σ × Bool) (st : σ) : σ × Bool × List ι :=
  visitAscend t.compare visitor pivot t.root st

/-! ## Key-indexed lookup and the structural invariants -/

variable {ι : Type} {α : Type} [LinearOrder α]

/-- BST search by key: the function `get (cmpKey key) target` computes,
expressed on the key `key target` alone. -/
def lookup (key : ι → α) (k : α) : GoNode ι → Option ι
  | .nil => none
  | .node i _ l r =>
    if k < key i then lookup key k l
    else if key i < k then lookup key k r
    else some i

/-- Every item of the tree satisfies `P`. -/
def All (P : ι → Prop) : GoNode ι → Prop
  | .nil => True
  | .node i _ l r => P i ∧ All P l ∧ All P r

/-- The BST invariant of the spec: at every node, items of the left
subtree compare strictly below the node's item and items of the right
subtree strictly above. -/
def isBST (key : ι → α) : GoNode ι → Prop
  | .nil => True
  | .node i _ l r =>
    All (fun x => key x < key i) l ∧ All (fun x => key i < key x) r ∧
      isBST key l ∧ isBST key r

/-- The root priority of the tree is at most `p` (nil trees vacuously). -/
def rootPrioLe (p : Int) : GoNode ι → Prop
  | .nil => True
  | .node _ q _ _ => q ≤ p

/-- The max-heap invariant of the spec: every node's priority is at least
the priorities of both children. -/
def isHeap : GoNode ι → Prop
  | .nil => True
  | .node _ p l r => rootPrioLe p l ∧ rootPrioLe p r ∧ isHeap l ∧ isHeap r

def decAll (P : ι → Prop) [DecidablePred P] :
    (n : GoNode ι) → Decidable (All P n)
  | .nil => isTrue trivial
  | .node i _ l r =>
    letI := decAll P l
    letI := decAll P r
    inferInstanceAs (Decidable (P i ∧ All P l ∧ All P r))

instance (P : ι → Prop) [DecidablePred P] (n : GoNode ι) :
    Decidable (All P n) := decAll P n

def decIsBST (key : ι → α) : (n : GoNode ι) → Decidable (isBST key n)
  | .nil => isTrue trivial
  | .node i _ l r =>
    letI := decIsBST key l
    letI := decIsBST key r
    inferInstanceAs (Decidable (All (fun x => key x < key i) l ∧
      All (fun x => key i < key x) r ∧ isBST key l ∧ isBST key r))

instance (key : ι → α) (n : GoNode ι) : Decidable (isBST key n) :=
  decIsBST key n

instance (p : Int) (n : GoNode ι) : Decidable (rootPrioLe p n) :=
  match n with
  | .nil => isTrue trivial
  | .node _ q _ _ => inferInstanceAs (Decidable (q ≤ p))

def decIsHeap : (n : GoNode ι) → Decidable (isHeap n)
  | .nil => isTrue trivial
  | .node _ p l r =>
    letI := decIsHeap l
    letI := decIsHeap r
    inferInstanceAs (Decidable (rootPrioLe p l ∧ rootPrioLe p r ∧
      isHeap l ∧ isHeap r))

instance (n : GoNode ι) : Decidable (isHeap n) := decIsHeap n

/-- Strict first-wins choice of two optional values, the key-set union of
two lookups: the Go `that`-wins rule reads `orElseO (lookup that) (lookup
this)`. -/
def orElseO (x y : Option ι) : Option ι :=
  match x with
  | some v => some v
  | none => y

/-- Sequencing of visitor runs: abort propagates, otherwise continue from
the reached state and append the visited items. -/
def seqRun {σ ι : Type} (a : σ × Bool × List ι)
    (f : σ → σ × Bool × List ι) : σ × Bool × List ι :=
  match a with
  | (st, false, v) => (st, false, v)
  | (st, true, v) =>
    match f st with
    | (st2, b, w) => (st2, b, v ++ w)

/-- Roots reachable from `NewTreap` by any sequence of `Upsert` and
`Delete` operations. -/
inductive Produced (cmp : ι → ι → Int) : GoNode ι → Prop where
  | new : Produced cmp .nil
  | ups (n : GoNode ι) (item : ι) (pr : Int) :
      Produced cmp n → Produced cmp (upsertRoot cmp n item pr)
  | del (n : GoNode ι) (target : ι) :
      Produced cmp n → Produced cmp (deleteRoot cmp n target)

/-! ## Heap/pool embedding

Nodes live in a store indexed by `Nat`; a Go `*node` is an `Option Nat`
(`none` is the nil pointer).  The `sync.Pool` is a LIFO stack of pooled
pointers (one legal behaviour of `sync.Pool`, whose `Get` may also treat
the pool as empty — the initial 10000 pre-filled fresh nodes are taken as
dropped, which `sync.Pool` permits at any time).  `nodePool.Put` pushes the
pointer, including nil pointers, which `newNode` turns into a fresh
allocation exactly as `if n == nil { n = &node{} }` does.  Field reads are
sequenced as Go evaluates them; recursion is fuel-bounded (`none` = fuel
exhausted, never hit on the concrete runs below).  Items are `Int` and the
caller-supplied comparison is the natural one. -/

/-- One stored node: the mutable fields of the Go `node` struct. -/
structure PNode where
  item : Int
  priority : Int
  left : Option Nat
  right : Option Nat
deriving DecidableEq, Repr

/-- The mutable world: node store plus recycling pool. -/
structure PStore where
  nodes : List PNode
  pool : List (Option Nat)
deriving DecidableEq, Repr

/-- Dereference a node pointer (all concrete runs stay in bounds). -/
def readNode (st : PStore) (i : Nat) : PNode :=
  st.nodes.getD i ⟨0, 0, none, none⟩

/-- `newNode` of treap.go: take a recycled slot from the pool and
overwrite its fields in place, or allocate fresh when the pool is empty or
returned a nil pointer. -/
def hNewNode (it pr : Int) (l r : Option Nat) (st : PStore) :
    Nat × PStore :=
  match st.pool with
  | some i :: rest =>
    (i, { nodes := st.nodes.set i ⟨it, pr, l, r⟩, pool := rest })
  | none :: rest =>
    (st.nodes.length, { nodes := st.nodes ++ [⟨it, pr, l, r⟩], pool := rest })
  | [] =>
    (st.nodes.length, { nodes := st.nodes ++ [⟨it, pr, l, r⟩], pool := [] })

/-- `nodePool.Put`: push a pointer (possibly nil) onto the pool. -/
def hPut (x : Option Nat) (st : PStore) : PStore :=
  { st with pool := x :: st.pool }

/-- The natural three-way `Compare` on `Int` supplied by the caller. -/
def hCmp (a b : Int) : Int :=
  if a < b then -1 else if b < a then 1 else 0

/-- `split` of treap.go on the store: the compare-equal node is handed
back as the middle pointer; on the recursive paths the rebuilt node is
allocated through `newNode` after the recursive call returns, reading the
current node's fields at that moment, exactly as Go evaluates
`newNode(n.item, n.priority, right, n.right)`. -/
def hSplit (fuel : Nat) (st : PStore) (n : Option Nat) (s : Int) :
    Option ((Option Nat × Option Nat × Option Nat) × PStore) :=
  match fuel with
  | 0 => none
  | fuel + 1 =>
    match n with
    | none => some ((none, none, none), st)
    | some idx =>
      let nd := readNode st idx
      let c := hCmp s nd.item
      if c = 0 then some ((nd.left, some idx, nd.right), st)
      else if c < 0 then
        match hSplit fuel st nd.left s with
        | none => none
        | some ((le, mid, ri), st1) =>
          let nd1 := readNode st1 idx
          let (j, st2) := hNewNode nd1.item nd1.priority ri nd1.right st1
          some ((le, mid, some j), st2)
      else
        match hSplit fuel st nd.right s with
        | none => none
        | some ((le, mid, ri), st1) =>
          let nd1 := readNode st1 idx
          let (j, st2) := hNewNode nd1.item nd1.priority nd1.left le st1
          some ((some j, mid, ri), st2)

/-- `union` of treap.go on the store: field tuples are captured before the
split exactly as lines 120 and 144 do, the middle of the losing side is
returned to the pool in the `that`-wins branch, and the result node is
allocated through `newNode` after both recursive unions. -/
def hUnion (fuel : Nat) (st : PStore) (a b : Option Nat) :
    Option (Option Nat × PStore) :=
  match fuel with
  | 0 => none
  | fuel + 1 =>
    match a with
    | none => some (b, st)
    | some ai =>
      match b with
      | none => some (some ai, st)
      | some bi =>
        let thisN := readNode st ai
        let thatN := readNode st bi
        if thisN.priority > thatN.priority then
          match hSplit fuel st (some bi) thisN.item with
          | none => none
          | some ((le, mid, ri), st1) =>
            match mid with
            | none =>
              match hUnion fuel st1 thisN.left le with
              | none => none
              | some (x, st2) =>
                match hUnion fuel st2 thisN.right ri with
                | none => none
                | some (y, st3) =>
                  let (j, st4) := hNewNode thisN.item thisN.priority x y st3
                  some (some j, st4)
            | some m =>
              let mitem := (readNode st1 m).item
              match hUnion fuel st1 thisN.left le with
              | none => none
              | some (x, st2) =>
                match hUnion fuel st2 thisN.right ri with
                | none => none
                | some (y, st3) =>
                  let (j, st4) := hNewNode mitem thisN.priority x y st3
                  some (some j, st4)
        else
          match hSplit fuel st (some ai) thatN.item with
          | none => none
          | some ((le, mid, ri), st1) =>
            let st2 := match mid with
              | some m => hPut (some m) st1
              | none => st1
            match hUnion fuel st2 le thatN.left with
            | none => none
            | some (x, st3) =>
              match hUnion fuel st3 ri thatN.right with
              | none => none
              | some (y, st4) =>
                let (j, st5) := hNewNode thatN.item thatN.priority x y st4
                some (some j, st5)

/-- Fresh allocation `&node{...}` (used by join, bypassing the pool). -/
def hFresh (it pr : Int) (l r : Option Nat) (st : PStore) :
    Nat × PStore :=
  (st.nodes.length, { st with nodes := st.nodes ++ [⟨it, pr, l, r⟩] })

/-- `join` of treap.go on the store: composite-literal allocation, never
touching the pool. -/
def hJoin (fuel : Nat) (st : PStore) (a b : Option Nat) :
    Option (Option Nat × PStore) :=
  match fuel with
  | 0 => none
  | fuel + 1 =>
    match a with
    | none => some (b, st)
    | some ai =>
      match b with
      | none => some (some ai, st)
      | some bi =>
        let thisN := readNode st ai
        let thatN := readNode st bi
        if thisN.priority > thatN.priority then
          match hJoin fuel st thisN.right (some bi) with
          | none => none
          | some (x, st1) =>
            let (j, st2) := hFresh thisN.item thisN.priority thisN.left x st1
            some (some j, st2)
        else
          match hJoin fuel st (some ai) thatN.left with
          | none => none
          | some (x, st1) =>
            let (j, st2) := hFresh thatN.item thatN.priority x thatN.right st1
            some (some j, st2)

/-- `Upsert` of treap.go on the store: the singleton is allocated through
`newNode` (the pool) before the union runs. -/
def hUpsert (fuel : Nat) (st : PStore) (root : Option Nat)
    (item pr : Int) : Option (Option Nat × PStore) :=
  let (j, st1) := hNewNode item pr none none st
  hUnion fuel st1 root (some j)

/-- `Delete` of treap.go on the store: split, join the outer parts, then
the deferred `nodePool.Put(t.root)` and `nodePool.Put(middle)` run in LIFO
defer order — both pointers go back to the pool while the old version may
still reference them. -/
def hDelete (fuel : Nat) (st : PStore) (root : Option Nat)
    (target : Int) : Option (Option Nat × PStore) :=
  match hSplit fuel st root target with
  | none => none
  | some ((le, mid, ri), st1) =>
    match hJoin fuel st1 le ri with
    | none => none
    | some (res, st2) => some (res, hPut mid (hPut root st2))

/-- `Get` of treap.go on the store: pure pointer walk, no mutation. -/
def hGet (fuel : Nat) (st : PStore) (n : Option Nat) (target : Int) :
    Option (Option Int) :=
  match fuel with
  | 0 => none
  | fuel + 1 =>
    match n with
    | none => some none
    | some idx =>
      let nd := readNode st idx
      let c := hCmp target nd.item
      if c < 0 then hGet fuel st nd.left target
      else if c > 0 then hGet fuel st nd.right target
      else some (some nd.item)


@[simp] theorem All_nil (P : ι → Prop) : All P (.nil : GoNode ι) :=
  trivial

@[simp] theorem All_node {P : ι → Prop} :
    All P (.node i p l r) ↔ P i ∧ All P l ∧ All P r := Iff.rfl

@[simp] theorem isBST_nil (key : ι → α) : isBST key (.nil : GoNode ι) :=
  trivial

@[simp] theorem isBST_node {key : ι → α} :
    isBST key (.node i p l r) ↔
      All (fun x => key x < key i) l ∧ All (fun x => key i < key x) r ∧
        isBST key l ∧ isBST key r := Iff.rfl

@[simp] theorem rootPrioLe_nil (p : Int) : rootPrioLe p (.nil : GoNode ι) :=
  trivial

@[simp] theorem rootPrioLe_node :
    rootPrioLe p (.node i q l r : GoNode ι) ↔ q ≤ p := Iff.rfl

@[simp] theorem isHeap_nil : isHeap (.nil : GoNode ι) := trivial

@[simp] theorem isHeap_node :
    isHeap (.node i p l r : GoNode ι) ↔
      rootPrioLe p l ∧ rootPrioLe p r ∧ isHeap l ∧ isHeap r := Iff.rfl

theorem All_mem {P : ι → Prop} {n : GoNode ι} (h : All P n) :
    ∀ x ∈ inorder n, P x := by
  induction n with
  | nil => simp [inorder]
  | node i p l r ihl ihr =>
    rcases h with ⟨hi, hl, hr⟩
    simp only [inorder, List.mem_append, List.mem_cons]
    rintro x (hx | rfl | hx)
    · exact ihl hl x hx
    · exact hi
    · exact ihr hr x hx

theorem All_of_mem {P : ι → Prop} {n : GoNode ι}
    (h : ∀ x ∈ inorder n, P x) : All P n := by
  induction n with
  | nil => trivial
  | node i p l r ihl ihr =>
    simp only [inorder, List.mem_append, List.mem_cons] at h
    exact ⟨h i (Or.inr (Or.inl rfl)),
      ihl fun x hx => h x (Or.inl hx),
      ihr fun x hx => h x (Or.inr (Or.inr hx))⟩

theorem All_imp {P Q : ι → Prop} {n : GoNode ι} (h : All P n)
    (hpq : ∀ x, P x → Q x) : All Q n :=
  All_of_mem fun x hx => hpq x (All_mem h x hx)

/-! ## Basic facts about the comparison -/

theorem cmpKey_neg_iff (key : ι → α) (a b : ι) :
    cmpKey key a b < 0 ↔ key a < key b := by
  unfold cmpKey
  split_ifs with h1 h2
  · exact iff_of_true (by norm_num) h1
  · exact iff_of_false (by norm_num) h1
  · exact iff_of_false (by norm_num) h1

theorem cmpKey_pos_iff (key : ι → α) (a b : ι) :
    0 < cmpKey key a b ↔ key b < key a := by
  unfold cmpKey
  split_ifs with h1 h2
  · exact iff_of_false (by norm_num) (asymm h1)
  · exact iff_of_true (by norm_num) h2
  · exact iff_of_false (by norm_num) h2

theorem cmpKey_zero_iff (key : ι → α) (a b : ι) :
    cmpKey key a b = 0 ↔ key a = key b := by
  unfold cmpKey
  split_ifs with h1 h2
  · exact iff_of_false (by norm_num) (ne_of_lt h1)
  · exact iff_of_false (by norm_num) (ne_of_gt h2)
  · exact iff_of_true rfl (le_antisymm (le_of_not_lt h2) (le_of_not_lt h1))

/-! ## Unfolding split under a lawful comparison -/

theorem split_eq_of_eq {key : ι → α} {s i : ι} (h : key s = key i)
    (p : Int) (l r : GoNode ι) :
    split (cmpKey key) (.node i p l r) s = (l, .node i p l r, r) := by
  simp only [split]
  rw [if_pos ((cmpKey_zero_iff key s i).mpr h)]

theorem split_eq_of_lt {key : ι → α} {s i : ι} (h : key s < key i)
    (p : Int) (l r : GoNode ι) :
    split (cmpKey key) (.node i p l r) s =
      ((split (cmpKey key) l s).1, (split (cmpKey key) l s).2.1,
        .node i p (split (cmpKey key) l s).2.2 r) := by
  simp only [split]
  rw [if_neg (by rw [cmpKey_zero_iff]; exact ne_of_lt h),
    if_pos ((cmpKey_neg_iff key s i).mpr h)]

theorem split_eq_of_gt {key : ι → α} {s i : ι} (h : key i < key s)
    (p : Int) (l r : GoNode ι) :
    split (cmpKey key) (.node i p l r) s =
      (.node i p l (split (cmpKey key) r s).1, (split (cmpKey key) r s).2.1,
        (split (cmpKey key) r s).2.2) := by
  simp only [split]
  rw [if_neg (by rw [cmpKey_zero_iff]; exact ne_of_gt h),
    if_neg (by rw [cmpKey_neg_iff]; exact asymm h)]

/-! ## Partition facts about split -/

theorem inorder_eq_nil {n : GoNode ι} : inorder n = [] ↔ n = .nil := by
  cases n <;> simp [inorder]

theorem split_inorder_left {key : ι → α} {n : GoNode ι} (s : ι)
    (hb : isBST key n) :
    inorder (split (cmpKey key) n s).1 =
      (inorder n).filter (fun x => decide (key x < key s)) := by
  induction n with
  | nil => simp [split, inorder]
  | node i p l r ihl ihr =>
    rcases hb with ⟨hl, hr, hbl, hbr⟩
    rcases lt_trichotomy (key s) (key i) with h | h | h
    · rw [split_eq_of_lt h, ihl hbl]
      simp only [inorder, List.filter_append, List.filter_cons]
      have h1 : (inorder r).filter (fun x => decide (key x < key s)) = [] := by
        rw [List.filter_eq_nil_iff]
        intro x hx
        simp only [decide_eq_true_eq]
        exact not_lt_of_lt (h.trans (All_mem hr x hx))
      have h2 : ¬ key i < key s := asymm h
      simp [h1, h2]
    · rw [split_eq_of_eq h]
      simp only [inorder, List.filter_append, List.filter_cons]
      have h1 : (inorder l).filter (fun x => decide (key x < key s)) =
          inorder l := by
        rw [List.filter_eq_self]
        intro x hx
        simp only [decide_eq_true_eq]
        exact h ▸ All_mem hl x hx
      have h2 : (inorder r).filter (fun x => decide (key x < key s)) = [] := by
        rw [List.filter_eq_nil_iff]
        intro x hx
        simp only [decide_eq_true_eq]
        exact not_lt_of_lt (h ▸ All_mem hr x hx)
      have h3 : ¬ key i < key s := by rw [← h]; exact lt_irrefl _
      simp [h1, h2, h3]
    · rw [split_eq_of_gt h]
      simp only [inorder]
      rw [ihr hbr]
      simp only [List.filter_append, List.filter_cons]
      have h1 : (inorder l).filter (fun x => decide (key x < key s)) =
          inorder l := by
        rw [List.filter_eq_self]
        intro x hx
        simp only [decide_eq_true_eq]
        exact (All_mem hl x hx).trans h
      simp [h1, h]

theorem split_inorder_right {key : ι → α} {n : GoNode ι} (s : ι)
    (hb : isBST key n) :
    inorder (split (cmpKey key) n s).2.2 =
      (inorder n).filter (fun x => decide (key s < key x)) := by
  induction n with
  | nil => simp [split, inorder]
  | node i p l r ihl ihr =>
    rcases hb with ⟨hl, hr, hbl, hbr⟩
    rcases lt_trichotomy (key s) (key i) with h | h | h
    · rw [split_eq_of_lt h]
      simp only [inorder]
      rw [ihl hbl]
      simp only [List.filter_append, List.filter_cons]
      have h1 : (inorder r).filter (fun x => decide (key s < key x)) =
          inorder r := by
        rw [List.filter_eq_self]
        intro x hx
        simp only [decide_eq_true_eq]
        exact h.trans (All_mem hr x hx)
      simp [h1, h]
    · rw [split_eq_of_eq h]
      simp only [inorder, List.filter_append, List.filter_cons]
      have h1 : (inorder l).filter (fun x => decide (key s < key x)) = [] := by
        rw [List.filter_eq_nil_iff]
        intro x hx
        simp only [decide_eq_true_eq]
        exact not_lt_of_lt (h ▸ All_mem hl x hx)
      have h2 : (inorder r).filter (fun x => decide (key s < key x)) =
          inorder r := by
        rw [List.filter_eq_self]
        intro x hx
        simp only [decide_eq_true_eq]
        exact h ▸ All_mem hr x hx
      have h3 : ¬ key s < key i := by rw [h]; exact lt_irrefl _
      simp [h1, h2, h3]
    · rw [split_eq_of_gt h, ihr hbr]
      simp only [inorder, List.filter_append, List.filter_cons]
      have h1 : (inorder l).filter (fun x => decide (key s < key x)) = [] := by
        rw [List.filter_eq_nil_iff]
        intro x hx
        simp only [decide_eq_true_eq]
        exact not_lt_of_lt ((All_mem hl x hx).trans h)
      have h2 : ¬ key s < key i := asymm h
      simp [h1, h2]

theorem split_middle (key : ι → α) (n : GoNode ι) (s : ι) :
    rootItem (split (cmpKey key) n s).2.1 = lookup key (key s) n := by
  induction n with
  | nil => simp [split, lookup, rootItem]
  | node i p l r ihl ihr =>
    rcases lt_trichotomy (key s) (key i) with h | h | h
    · rw [split_eq_of_lt h]
      simp [lookup, h, ihl]
    · rw [split_eq_of_eq h]
      simp [lookup, rootItem, h]
    · rw [split_eq_of_gt h]
      simp [lookup, h, asymm h, ihr]

theorem lookup_split_left {key : ι → α} {k : α} {s : ι} (n : GoNode ι)
    (h : k < key s) :
    lookup key k (split (cmpKey key) n s).1 = lookup key k n := by
  induction n with
  | nil => simp [split]
  | node i p l r ihl ihr =>
    rcases lt_trichotomy (key s) (key i) with hc | hc | hc
    · rw [split_eq_of_lt hc]
      have : k < key i := h.trans hc
      simp [lookup, this, ihl]
    · rw [split_eq_of_eq hc]
      have : k < key i := hc ▸ h
      simp [lookup, this]
    · rw [split_eq_of_gt hc]
      rcases lt_trichotomy k (key i) with hk | hk | hk
      · simp [lookup, hk]
      · simp [lookup, hk, lt_irrefl]
      · simp [lookup, asymm hk, hk, ihr]

theorem lookup_split_right {key : ι → α} {k : α} {s : ι} (n : GoNode ι)
    (h : key s < k) :
    lookup key k (split (cmpKey key) n s).2.2 = lookup key k n := by
  induction n with
  | nil => simp [split]
  | node i p l r ihl ihr =>
    rcases lt_trichotomy (key s) (key i) with hc | hc | hc
    · rw [split_eq_of_lt hc]
      rcases lt_trichotomy k (key i) with hk | hk | hk
      · simp [lookup, hk, ihl]
      · simp [lookup, hk, lt_irrefl]
      · simp [lookup, asymm hk, hk]
    · rw [split_eq_of_eq hc]
      have : key i < k := hc ▸ h
      simp [lookup, asymm this, this]
    · rw [split_eq_of_gt hc]
      have : key i < k := hc.trans h
      simp [lookup, asymm this, this, ihr]

theorem split_All {P : ι → Prop} {n : GoNode ι} (s : ι) (key : ι → α)
    (h : All P n) :
    All P (split (cmpKey key) n s).1 ∧ All P (split (cmpKey key) n s).2.1 ∧
      All P (split (cmpKey key) n s).2.2 := by
  induction n with
  | nil => simp [split]
  | node i p l r ihl ihr =>
    rcases h with ⟨hi, hl, hr⟩
    rcases lt_trichotomy (key s) (key i) with hc | hc | hc
    · rw [split_eq_of_lt hc]
      rcases ihl hl with ⟨h1, h2, h3⟩
      exact ⟨h1, h2, hi, h3, hr⟩
    · rw [split_eq_of_eq hc]
      exact ⟨hl, ⟨hi, hl, hr⟩, hr⟩
    · rw [split_eq_of_gt hc]
      rcases ihr hr with ⟨h1, h2, h3⟩
      exact ⟨⟨hi, hl, h1⟩, h2, h3⟩

theorem split_prio {q : Int} {n : GoNode ι} (s : ι) (key : ι → α)
    (hh : isHeap n) (hq : rootPrioLe q n) :
    rootPrioLe q (split (cmpKey key) n s).1 ∧
      rootPrioLe q (split (cmpKey key) n s).2.2 := by
  induction n generalizing q with
  | nil => simp [split]
  | node i p l r ihl ihr =>
    rcases hh with ⟨hpl, hpr, hhl, hhr⟩
    rw [rootPrioLe_node] at hq
    rcases lt_trichotomy (key s) (key i) with hc | hc | hc
    · rw [split_eq_of_lt hc]
      have hlq : rootPrioLe q l := by
        cases l with
        | nil => trivial
        | node li lp ll lr => exact le_trans (by simpa using hpl) hq
      exact ⟨(ihl hhl hlq).1, by simpa using hq⟩
    · rw [split_eq_of_eq hc]
      constructor
      · cases l with
        | nil => trivial
        | node li lp ll lr => exact le_trans (by simpa using hpl) hq
      · cases r with
        | nil => trivial
        | node ri rp rl rr => exact le_trans (by simpa using hpr) hq
    · rw [split_eq_of_gt hc]
      have hrq : rootPrioLe q r := by
        cases r with
        | nil => trivial
        | node ri rp rl rr => exact le_trans (by simpa using hpr) hq
      exact ⟨by simpa using hq, (ihr hhr hrq).2⟩

theorem split_isHeap {n : GoNode ι} (s : ι) (key : ι → α) (hh : isHeap n) :
    isHeap (split (cmpKey key) n s).1 ∧ isHeap (split (cmpKey key) n s).2.2 := by
  induction n with
  | nil => simp [split]
  | node i p l r ihl ihr =>
    rcases hh with ⟨hpl, hpr, hhl, hhr⟩
    rcases lt_trichotomy (key s) (key i) with hc | hc | hc
    · rw [split_eq_of_lt hc]
      refine ⟨(ihl hhl).1, ?_⟩
      rw [isHeap_node]
      exact ⟨(split_prio s key hhl hpl).2, hpr, (ihl hhl).2, hhr⟩
    · rw [split_eq_of_eq hc]
      exact ⟨hhl, hhr⟩
    · rw [split_eq_of_gt hc]
      refine ⟨?_, (ihr hhr).2⟩
      rw [isHeap_node]
      exact ⟨hpl, (split_prio s key hhr hpr).1, hhl, (ihr hhr).1⟩

/-! ## Unfolding union and join -/

theorem union_nil_left (cmp : ι → ι → Int) (that : GoNode ι) :
    union cmp .nil that = that := by
  rw [union.eq_def]

theorem union_nil_right (cmp : ι → ι → Int) (i : ι) (p : Int)
    (l r : GoNode ι) :
    union cmp (.node i p l r) .nil = .node i p l r := by
  rw [union.eq_def]

theorem union_gt_nil {cmp : ι → ι → Int} {p tp : Int} (h : p > tp)
    {i ti : ι} {l r tl tr : GoNode ι}
    (hm : (split cmp (.node ti tp tl tr) i).2.1 = .nil) :
    union cmp (.node i p l r) (.node ti tp tl tr) =
      .node i p (union cmp l (split cmp (.node ti tp tl tr) i).1)
        (union cmp r (split cmp (.node ti tp tl tr) i).2.2) := by
  rw [union.eq_def]
  simp only [if_pos h, hm]

theorem union_gt_mid {cmp : ι → ι → Int} {p tp : Int} (h : p > tp)
    {i ti mi : ι} {mp : Int} {l r tl tr ml mr : GoNode ι}
    (hm : (split cmp (.node ti tp tl tr) i).2.1 = .node mi mp ml mr) :
    union cmp (.node i p l r) (.node ti tp tl tr) =
      .node mi p (union cmp l (split cmp (.node ti tp tl tr) i).1)
        (union cmp r (split cmp (.node ti tp tl tr) i).2.2) := by
  rw [union.eq_def]
  simp only [if_pos h, hm]

theorem union_le {cmp : ι → ι → Int} {p tp : Int} (h : ¬ p > tp)
    {i ti : ι} {l r tl tr : GoNode ι} :
    union cmp (.node i p l r) (.node ti tp tl tr) =
      .node ti tp (union cmp (split cmp (.node i p l r) ti).1 tl)
        (union cmp (split cmp (.node i p l r) ti).2.2 tr) := by
  rw [union.eq_def]
  simp only [if_neg h]

theorem join_nil_left (that : GoNode ι) : join .nil that = that := by
  rw [join.eq_def]

theorem join_nil_right (i : ι) (p : Int) (l r : GoNode ι) :
    join (.node i p l r) .nil = .node i p l r := by
  rw [join.eq_def]

theorem join_gt {p tp : Int} (h : p > tp) {i ti : ι} {l r tl tr : GoNode ι} :
    join (.node i p l r) (.node ti tp tl tr) =
      .node i p l (join r (.node ti tp tl tr)) := by
  rw [join.eq_def]
  simp only [if_pos h]

theorem join_le {p tp : Int} (h : ¬ p > tp) {i ti : ι} {l r tl tr : GoNode ι} :
    join (.node i p l r) (.node ti tp tl tr) =
      .node ti tp (join (.node i p l r) tl) tr := by
  rw [join.eq_def]
  simp only [if_neg h]

/-! ## The BST invariant as sortedness of the in-order sequence -/

theorem isBST_iff_pairwise {key : ι → α} {n : GoNode ι} :
    isBST key n ↔ (inorder n).Pairwise (fun a b => key a < key b) := by
  induction n with
  | nil => simp [inorder]
  | node i p l r ihl ihr =>
    constructor
    · rintro ⟨hl, hr, bl, br⟩
      rw [inorder, List.pairwise_append]
      refine ⟨ihl.mp bl, ?_, ?_⟩
      · rw [List.pairwise_cons]
        exact ⟨fun b hb => All_mem hr b hb, ihr.mp br⟩
      · intro a ha b hb
        rcases List.mem_cons.mp hb with rfl | hb
        · exact All_mem hl a ha
        · exact (All_mem hl a ha).trans (All_mem hr b hb)
    · intro h
      rw [inorder, List.pairwise_append, List.pairwise_cons] at h
      rcases h with ⟨hpl, ⟨hir, hpr⟩, hcross⟩
      exact ⟨All_of_mem fun x hx => hcross x hx i (List.mem_cons_self _ _),
        All_of_mem hir, ihl.mpr hpl, ihr.mpr hpr⟩

theorem split_isBST {key : ι → α} {n : GoNode ι} (s : ι) (hb : isBST key n) :
    isBST key (split (cmpKey key) n s).1 ∧
      isBST key (split (cmpKey key) n s).2.2 := by
  constructor
  · rw [isBST_iff_pairwise, split_inorder_left s hb]
    exact (isBST_iff_pairwise.mp hb).filter _
  · rw [isBST_iff_pairwise, split_inorder_right s hb]
    exact (isBST_iff_pairwise.mp hb).filter _

theorem split_bound {key : ι → α} {n : GoNode ι} (s : ι) (hb : isBST key n) :
    All (fun x => key x < key s) (split (cmpKey key) n s).1 ∧
      All (fun x => key s < key x) (split (cmpKey key) n s).2.2 := by
  constructor
  · refine All_of_mem fun x hx => ?_
    rw [split_inorder_left s hb] at hx
    simpa using (List.mem_filter.mp hx).2
  · refine All_of_mem fun x hx => ?_
    rw [split_inorder_right s hb] at hx
    simpa using (List.mem_filter.mp hx).2

theorem lookup_some_key {key : ι → α} {k : α} {n : GoNode ι} {x : ι}
    (h : lookup key k n = some x) : key x = k := by
  induction n with
  | nil => simp [lookup] at h
  | node i p l r ihl ihr =>
    rw [lookup] at h
    split_ifs at h with h1 h2
    · exact ihl h
    · exact ihr h
    · cases h
      exact le_antisymm (le_of_not_lt h1) (le_of_not_lt h2)

/-! ## Invariant preservation and lookup semantics of union -/

@[simp] theorem orElseO_some (v : ι) (y : Option ι) :
    orElseO (some v) y = some v := rfl

@[simp] theorem orElseO_none (y : Option ι) : orElseO none y = y := rfl

theorem union_All {key : ι → α} {P : ι → Prop} (a b : GoNode ι)
    (ha : All P a) (hb : All P b) : All P (union (cmpKey key) a b) := by
  induction a, b using union.induct (cmpKey key) with
  | case1 b => simpa [union_nil_left] using hb
  | case2 i p l r => simpa [union_nil_right] using ha
  | case3 i p l r ti tp tl tr h t3 hm ihl ihr =>
    rw [union_gt_nil h hm]
    rcases ha with ⟨hi, hal, har⟩
    rcases split_All i key hb with ⟨h1, _, h3⟩
    exact ⟨hi, ihl hal h1, ihr har h3⟩
  | case4 i p l r ti tp tl tr h t3 mi mp ml mr hm ihl ihr =>
    rw [union_gt_mid h hm]
    rcases ha with ⟨hi, hal, har⟩
    rcases split_All i key hb with ⟨h1, h2, h3⟩
    rw [hm] at h2
    exact ⟨h2.1, ihl hal h1, ihr har h3⟩
  | case5 i p l r ti tp tl tr h t3 ihl ihr =>
    rw [union_le h]
    rcases hb with ⟨hi, hbl, hbr⟩
    rcases split_All ti key ha with ⟨h1, _, h3⟩
    exact ⟨hi, ihl h1 hbl, ihr h3 hbr⟩

theorem union_rootPrioLe {key : ι → α} {q : Int} {a b : GoNode ι}
    (ha : rootPrioLe q a) (hb : rootPrioLe q b) :
    rootPrioLe q (union (cmpKey key) a b) := by
  cases a with
  | nil => simpa [union_nil_left] using hb
  | node i p l r =>
    cases b with
    | nil => simpa [union_nil_right] using ha
    | node ti tp tl tr =>
      by_cases h : p > tp
      · cases hm : (split (cmpKey key) (.node ti tp tl tr) i).2.1 with
        | nil => rw [union_gt_nil h hm]; simpa using ha
        | node mi mp ml mr => rw [union_gt_mid h hm]; simpa using ha
      · rw [union_le h]; simpa using hb

theorem union_isHeap {key : ι → α} (a b : GoNode ι)
    (ha : isHeap a) (hb : isHeap b) : isHeap (union (cmpKey key) a b) := by
  induction a, b using union.induct (cmpKey key) with
  | case1 b => simpa [union_nil_left] using hb
  | case2 i p l r => simpa [union_nil_right] using ha
  | case3 i p l r ti tp tl tr h t3 hm ihl ihr =>
    rw [union_gt_nil h hm]
    rcases ha with ⟨hpl, hpr, hal, har⟩
    have hbq : rootPrioLe p (GoNode.node ti tp tl tr) := by
      simpa using le_of_lt h
    rcases split_prio i key hb hbq with ⟨h1, h2⟩
    rcases split_isHeap i key hb with ⟨h3, h4⟩
    exact ⟨union_rootPrioLe hpl h1, union_rootPrioLe hpr h2,
      ihl hal h3, ihr har h4⟩
  | case4 i p l r ti tp tl tr h t3 mi mp ml mr hm ihl ihr =>
    rw [union_gt_mid h hm]
    rcases ha with ⟨hpl, hpr, hal, har⟩
    have hbq : rootPrioLe p (GoNode.node ti tp tl tr) := by
      simpa using le_of_lt h
    rcases split_prio i key hb hbq with ⟨h1, h2⟩
    rcases split_isHeap i key hb with ⟨h3, h4⟩
    exact ⟨union_rootPrioLe hpl h1, union_rootPrioLe hpr h2,
      ihl hal h3, ihr har h4⟩
  | case5 i p l r ti tp tl tr h t3 ihl ihr =>
    rw [union_le h]
    rcases hb with ⟨hpl, hpr, hbl, hbr⟩
    have haq : rootPrioLe tp (GoNode.node i p l r) := by
      simpa using le_of_not_lt h
    rcases split_prio ti key ha haq with ⟨h1, h2⟩
    rcases split_isHeap ti key ha with ⟨h3, h4⟩
    exact ⟨union_rootPrioLe h1 hpl, union_rootPrioLe h2 hpr,
      ihl h3 hbl, ihr h4 hbr⟩

theorem union_isBST {key : ι → α} (a b : GoNode ι)
    (ha : isBST key a) (hb : isBST key b) :
    isBST key (union (cmpKey key) a b) := by
  induction a, b using union.induct (cmpKey key) with
  | case1 b => simpa [union_nil_left] using hb
  | case2 i p l r => simpa [union_nil_right] using ha
  | case3 i p l r ti tp tl tr h t3 hm ihl ihr =>
    rw [union_gt_nil h hm]
    rcases ha with ⟨hal, har, hbl, hbr⟩
    rcases split_bound i hb with ⟨h1, h2⟩
    rcases split_isBST i hb with ⟨h3, h4⟩
    exact ⟨union_All l _ hal h1, union_All r _ har h2,
      ihl hbl h3, ihr hbr h4⟩
  | case4 i p l r ti tp tl tr h t3 mi mp ml mr hm ihl ihr =>
    have hkey : key mi = key i := by
      have := split_middle key (GoNode.node ti tp tl tr) i
      rw [hm] at this
      exact lookup_some_key this.symm
    rw [union_gt_mid h hm]
    rcases ha with ⟨hal, har, hbl, hbr⟩
    rcases split_bound i hb with ⟨h1, h2⟩
    rcases split_isBST i hb with ⟨h3, h4⟩
    refine ⟨?_, ?_, ihl hbl h3, ihr hbr h4⟩
    · exact All_imp (union_All l _ hal h1) fun x hx => hkey ▸ hx
    · exact All_imp (union_All r _ har h2) fun x hx => hkey ▸ hx
  | case5 i p l r ti tp tl tr h t3 ihl ihr =>
    rw [union_le h]
    rcases hb with ⟨hbl, hbr, hb1, hb2⟩
    rcases split_bound ti ha with ⟨h1, h2⟩
    rcases split_isBST ti ha with ⟨h3, h4⟩
    exact ⟨union_All _ tl h1 hbl, union_All _ tr h2 hbr,
      ihl h3 hb1, ihr h4 hb2⟩

@[simp] theorem orElseO_none_right (x : Option ι) : orElseO x none = x := by
  cases x <;> rfl

theorem union_lookup {key : ι → α} (a b : GoNode ι)
    (ha : isBST key a) (hb : isBST key b) (k : α) :
    lookup key k (union (cmpKey key) a b) =
      orElseO (lookup key k b) (lookup key k a) := by
  induction a, b using union.induct (cmpKey key) with
  | case1 b => simp [union_nil_left, lookup]
  | case2 i p l r => simp [union_nil_right, lookup]
  | case3 i p l r ti tp tl tr h t3 hm ihl ihr =>
    rcases ha with ⟨hal, har, ha1, ha2⟩
    rcases split_isBST i hb with ⟨h3, h4⟩
    rw [union_gt_nil h hm]
    have hmidnone : lookup key (key i) (GoNode.node ti tp tl tr) = none := by
      have := split_middle key (GoNode.node ti tp tl tr) i
      rw [hm] at this
      exact this.symm
    rcases lt_trichotomy k (key i) with hk | hk | hk
    · rw [lookup, if_pos hk, ihl ha1 h3,
        lookup_split_left _ hk,
        show lookup key k (GoNode.node i p l r) = lookup key k l by
          rw [lookup, if_pos hk]]
    · subst hk
      rw [lookup, if_neg (lt_irrefl _), if_neg (lt_irrefl _), hmidnone,
        orElseO_none,
        show lookup key (key i) (GoNode.node i p l r) = some i by
          rw [lookup, if_neg (lt_irrefl _), if_neg (lt_irrefl _)]]
    · rw [lookup, if_neg (asymm hk), if_pos hk, ihr ha2 h4,
        lookup_split_right _ hk,
        show lookup key k (GoNode.node i p l r) = lookup key k r by
          rw [lookup, if_neg (asymm hk), if_pos hk]]
  | case4 i p l r ti tp tl tr h t3 mi mp ml mr hm ihl ihr =>
    rcases ha with ⟨hal, har, ha1, ha2⟩
    rcases split_isBST i hb with ⟨h3, h4⟩
    have hmidsome : lookup key (key i) (GoNode.node ti tp tl tr) = some mi := by
      have := split_middle key (GoNode.node ti tp tl tr) i
      rw [hm] at this
      exact this.symm
    have hkey : key mi = key i := lookup_some_key hmidsome
    rw [union_gt_mid h hm]
    rcases lt_trichotomy k (key i) with hk | hk | hk
    · rw [lookup, if_pos (hkey ▸ hk), ihl ha1 h3,
        lookup_split_left _ hk,
        show lookup key k (GoNode.node i p l r) = lookup key k l by
          rw [lookup, if_pos hk]]
    · subst hk
      rw [lookup, if_neg (by rw [hkey]; exact lt_irrefl _),
        if_neg (by rw [hkey]; exact lt_irrefl _), hmidsome]
      simp [orElseO]
    · rw [lookup, if_neg (by rw [hkey]; exact asymm hk),
        if_pos (hkey ▸ hk), ihr ha2 h4,
        lookup_split_right _ hk,
        show lookup key k (GoNode.node i p l r) = lookup key k r by
          rw [lookup, if_neg (asymm hk), if_pos hk]]
  | case5 i p l r ti tp tl tr h t3 ihl ihr =>
    rcases hb with ⟨hbl, hbr, hb1, hb2⟩
    rcases split_isBST ti ha with ⟨h3, h4⟩
    rw [union_le h]
    rcases lt_trichotomy k (key ti) with hk | hk | hk
    · rw [lookup, if_pos hk, ihl h3 hb1,
        lookup_split_left _ hk,
        show lookup key k (GoNode.node ti tp tl tr) = lookup key k tl by
          rw [lookup, if_pos hk]]
    · subst hk
      rw [lookup, if_neg (lt_irrefl _), if_neg (lt_irrefl _),
        show lookup key (key ti) (GoNode.node ti tp tl tr) = some ti by
          rw [lookup, if_neg (lt_irrefl _), if_neg (lt_irrefl _)]]
      simp [orElseO]
    · rw [lookup, if_neg (asymm hk), if_pos hk, ihr h4 hb2,
        lookup_split_right _ hk,
        show lookup key k (GoNode.node ti tp tl tr) = lookup key k tr by
          rw [lookup, if_neg (asymm hk), if_pos hk]]

/-! ## Join: concatenation facts -/

theorem join_inorder (a b : GoNode ι) :
    inorder (join a b) = inorder a ++ inorder b := by
  induction a, b using join.induct with
  | case1 b => simp [join_nil_left, inorder]
  | case2 i p l r => simp [join_nil_right, inorder]
  | case3 i p l r ti tp tl tr h ih =>
    rw [join_gt h]
    simp [inorder, ih]
  | case4 i p l r ti tp tl tr h ih =>
    rw [join_le h]
    simp [inorder, ih]

theorem join_rootPrioLe {q : Int} {a b : GoNode ι}
    (ha : rootPrioLe q a) (hb : rootPrioLe q b) :
    rootPrioLe q (join a b) := by
  cases a with
  | nil => simpa [join_nil_left] using hb
  | node i p l r =>
    cases b with
    | nil => simpa [join_nil_right] using ha
    | node ti tp tl tr =>
      by_cases h : p > tp
      · rw [join_gt h]; simpa using ha
      · rw [join_le h]; simpa using hb

theorem join_isHeap (a b : GoNode ι) (ha : isHeap a) (hb : isHeap b) :
    isHeap (join a b) := by
  induction a, b using join.induct with
  | case1 b => simpa [join_nil_left] using hb
  | case2 i p l r => simpa [join_nil_right] using ha
  | case3 i p l r ti tp tl tr h ih =>
    rw [join_gt h]
    rcases ha with ⟨hpl, hpr, hl, hr⟩
    refine ⟨hpl, join_rootPrioLe hpr (by simpa using le_of_lt h), hl, ?_⟩
    exact ih hr hb
  | case4 i p l r ti tp tl tr h ih =>
    rw [join_le h]
    rcases hb with ⟨hpl, hpr, hl, hr⟩
    refine ⟨join_rootPrioLe (by simpa using le_of_not_lt h) hpl, hpr, ?_, hr⟩
    exact ih ha hl

theorem join_isBST {key : ι → α} (a b : GoNode ι)
    (ha : isBST key a) (hb : isBST key b)
    (hsep : ∀ x ∈ inorder a, ∀ y ∈ inorder b, key x < key y) :
    isBST key (join a b) := by
  rw [isBST_iff_pairwise, join_inorder, List.pairwise_append]
  exact ⟨isBST_iff_pairwise.mp ha, isBST_iff_pairwise.mp hb, hsep⟩

/-! ## Lookup as membership -/

theorem mem_lookup_iff {key : ι → α} {n : GoNode ι} (hb : isBST key n)
    {k : α} {x : ι} :
    lookup key k n = some x ↔ x ∈ inorder n ∧ key x = k := by
  induction n with
  | nil => simp [lookup, inorder]
  | node i p l r ihl ihr =>
    rcases hb with ⟨hl, hr, hbl, hbr⟩
    rcases lt_trichotomy k (key i) with hk | hk | hk
    · rw [lookup, if_pos hk, ihl hbl]
      constructor
      · rintro ⟨hmem, he⟩
        exact ⟨by simp [inorder, hmem], he⟩
      · rintro ⟨hmem, he⟩
        simp only [inorder, List.mem_append, List.mem_cons] at hmem
        rcases hmem with hmem | rfl | hmem
        · exact ⟨hmem, he⟩
        · exact absurd (he ▸ hk) (lt_irrefl _)
        · exact absurd (he ▸ hk) (asymm (All_mem hr x hmem))
    · subst hk
      rw [lookup, if_neg (lt_irrefl _), if_neg (lt_irrefl _)]
      constructor
      · rintro h
        cases h
        exact ⟨by simp [inorder], rfl⟩
      · rintro ⟨hmem, he⟩
        simp only [inorder, List.mem_append, List.mem_cons] at hmem
        rcases hmem with hmem | rfl | hmem
        · exact absurd (All_mem hl x hmem) (he ▸ lt_irrefl _)
        · rfl
        · exact absurd (All_mem hr x hmem) (he ▸ lt_irrefl _)
    · rw [lookup, if_neg (asymm hk), if_pos hk, ihr hbr]
      constructor
      · rintro ⟨hmem, he⟩
        exact ⟨by simp [inorder, hmem], he⟩
      · rintro ⟨hmem, he⟩
        simp only [inorder, List.mem_append, List.mem_cons] at hmem
        rcases hmem with hmem | rfl | hmem
        · exact absurd (he ▸ hk) (asymm (All_mem hl x hmem))
        · exact absurd (he ▸ hk) (lt_irrefl _)
        · exact ⟨hmem, he⟩

theorem lookup_eq_none_iff {key : ι → α} {n : GoNode ι} (hb : isBST key n)
    {k : α} :
    lookup key k n = none ↔ ∀ x ∈ inorder n, key x ≠ k := by
  constructor
  · intro h x hx hk
    have hs := (mem_lookup_iff hb).mpr ⟨hx, hk⟩
    rw [h] at hs
    exact Option.noConfusion hs
  · intro h
    cases he : lookup key k n with
    | none => rfl
    | some x =>
      rcases (mem_lookup_iff hb).mp he with ⟨hx, hk⟩
      exact absurd hk (h x hx)

/-! ## Delete semantics -/

theorem deleteRoot_inorder {key : ι → α} {n : GoNode ι} (target : ι)
    (hb : isBST key n) :
    inorder (deleteRoot (cmpKey key) n target) =
      (inorder n).filter (fun x => decide (key x < key target)) ++
        (inorder n).filter (fun x => decide (key target < key x)) := by
  rw [deleteRoot, join_inorder, split_inorder_left target hb,
    split_inorder_right target hb]

theorem deleteRoot_isBST {key : ι → α} {n : GoNode ι} (target : ι)
    (hb : isBST key n) :
    isBST key (deleteRoot (cmpKey key) n target) := by
  rw [deleteRoot]
  refine join_isBST _ _ (split_isBST target hb).1 (split_isBST target hb).2
    fun x hx y hy => ?_
  rw [split_inorder_left target hb] at hx
  rw [split_inorder_right target hb] at hy
  have h1 : key x < key target := by simpa using (List.mem_filter.mp hx).2
  have h2 : key target < key y := by simpa using (List.mem_filter.mp hy).2
  exact h1.trans h2

theorem deleteRoot_isHeap {key : ι → α} {n : GoNode ι} (target : ι)
    (hh : isHeap n) :
    isHeap (deleteRoot (cmpKey key) n target) :=
  join_isHeap _ _ (split_isHeap target key hh).1 (split_isHeap target key hh).2

theorem deleteRoot_lookup {key : ι → α} {n : GoNode ι} (target : ι)
    (hb : isBST key n) (k : α) :
    lookup key k (deleteRoot (cmpKey key) n target) =
      if k = key target then none else lookup key k n := by
  have hdb := deleteRoot_isBST target hb
  by_cases hk : k = key target
  · rw [if_pos hk]
    rw [lookup_eq_none_iff hdb]
    intro x hx
    rw [deleteRoot_inorder target hb, List.mem_append] at hx
    rcases hx with hx | hx
    · have h2 := (List.mem_filter.mp hx).2
      simp only [decide_eq_true_eq] at h2
      intro he
      rw [he, hk] at h2
      exact lt_irrefl _ h2
    · have h2 := (List.mem_filter.mp hx).2
      simp only [decide_eq_true_eq] at h2
      intro he
      rw [he, hk] at h2
      exact lt_irrefl _ h2
  · rw [if_neg hk]
    cases he : lookup key k n with
    | none =>
      rw [lookup_eq_none_iff hdb]
      rw [lookup_eq_none_iff hb] at he
      intro x hx
      rw [deleteRoot_inorder target hb, List.mem_append] at hx
      rcases hx with hx | hx <;>
        exact he x (List.mem_filter.mp hx).1
    | some x =>
      rcases (mem_lookup_iff hb).mp he with ⟨hmem, hkey⟩
      refine (mem_lookup_iff hdb).mpr ⟨?_, hkey⟩
      rw [deleteRoot_inorder target hb, List.mem_append]
      rcases lt_or_gt_of_ne (fun hcon => hk (hkey ▸ hcon)) with hlt | hgt
      · exact Or.inl (List.mem_filter.mpr ⟨hmem, by simpa using hkey ▸ hlt⟩)
      · exact Or.inr (List.mem_filter.mpr ⟨hmem, by simpa using hkey ▸ hgt⟩)

/-! ## Upsert: invariants of the singleton union -/

theorem singleton_isBST {key : ι → α} (item : ι) (pr : Int) :
    isBST key (.node item pr .nil .nil : GoNode ι) := by
  simp

theorem singleton_isHeap (item : ι) (pr : Int) :
    isHeap (.node item pr .nil .nil : GoNode ι) := by
  simp

theorem upsertRoot_isBST {key : ι → α} {n : GoNode ι} (item : ι) (pr : Int)
    (hb : isBST key n) : isBST key (upsertRoot (cmpKey key) n item pr) :=
  union_isBST _ _ hb (singleton_isBST item pr)

theorem upsertRoot_isHeap {key : ι → α} {n : GoNode ι} (item : ι) (pr : Int)
    (hh : isHeap n) : isHeap (upsertRoot (cmpKey key) n item pr) :=
  union_isHeap _ _ hh (singleton_isHeap item pr)

theorem upsertRoot_lookup {key : ι → α} {n : GoNode ι} (item : ι) (pr : Int)
    (hb : isBST key n) (k : α) :
    lookup key k (upsertRoot (cmpKey key) n item pr) =
      if k = key item then some item else lookup key k n := by
  rw [upsertRoot, union_lookup _ _ hb (singleton_isBST item pr)]
  by_cases hk : k = key item
  · subst hk
    rw [show lookup key (key item) (.node item pr .nil .nil : GoNode ι) =
        some item by rw [lookup, if_neg (lt_irrefl _), if_neg (lt_irrefl _)]]
    simp [orElseO]
  · rcases lt_or_gt_of_ne hk with hlt | hgt
    · rw [show lookup key k (.node item pr .nil .nil : GoNode ι) = none by
        rw [lookup, if_pos hlt]; rfl]
      simp [orElseO, hk]
    · rw [show lookup key k (.node item pr .nil .nil : GoNode ι) = none by
        rw [lookup, if_neg (asymm hgt), if_pos hgt]; rfl]
      simp [orElseO, hk]

/-! ## Versions produced by sequences of operations -/

theorem Produced_isBST_isHeap {key : ι → α} {n : GoNode ι}
    (h : Produced (cmpKey key) n) : isBST key n ∧ isHeap n := by
  induction h with
  | new => exact ⟨trivial, trivial⟩
  | ups m item pr hm ih =>
    exact ⟨upsertRoot_isBST item pr ih.1, upsertRoot_isHeap item pr ih.2⟩
  | del m target hm ih =>
    exact ⟨deleteRoot_isBST target ih.1, deleteRoot_isHeap target ih.2⟩

/-! ## Bridging Get to key-indexed lookup -/

theorem get_eq_lookup {key : ι → α} (target : ι) (n : GoNode ι) :
    get (cmpKey key) target n = lookup key (key target) n := by
  induction n with
  | nil => rfl
  | node i p l r ihl ihr =>
    rw [get, lookup]
    rcases lt_trichotomy (key target) (key i) with hk | hk | hk
    · rw [if_pos ((cmpKey_neg_iff key target i).mpr hk), if_pos hk]
      exact ihl
    · rw [if_neg (by rw [cmpKey_neg_iff]; exact hk ▸ lt_irrefl _),
        if_neg (by rw [gt_iff_lt, cmpKey_pos_iff]; exact hk ▸ lt_irrefl _),
        if_neg (hk ▸ lt_irrefl _), if_neg (hk ▸ lt_irrefl _)]
    · rw [if_neg (by rw [cmpKey_neg_iff]; exact asymm hk),
        if_pos (by rw [gt_iff_lt, cmpKey_pos_iff]; exact hk),
        if_neg (asymm hk), if_pos hk]
      exact ihr

/-! ## Min and Max -/

theorem treapMin_eq_none_iff {n : GoNode ι} :
    treapMin n = none ↔ n = .nil := by
  induction n with
  | nil => simp [treapMin]
  | node i p l r ihl ihr =>
    cases l with
    | nil => simp [treapMin]
    | node li lp ll lr =>
      rw [treapMin]
      simp only [ihl]
      simp

theorem treapMax_eq_none_iff {n : GoNode ι} :
    treapMax n = none ↔ n = .nil := by
  induction n with
  | nil => simp [treapMax]
  | node i p l r ihl ihr =>
    cases r with
    | nil => simp [treapMax]
    | node ri rp rl rr =>
      rw [treapMax]
      simp only [ihr]
      simp

theorem treapMin_spec {key : ι → α} {n : GoNode ι} (hb : isBST key n)
    {m : ι} (hm : treapMin n = some m) :
    m ∈ inorder n ∧ ∀ x ∈ inorder n, key m ≤ key x := by
  induction n with
  | nil => simp [treapMin] at hm
  | node i p l r ihl ihr =>
    rcases hb with ⟨hl, hr, hbl, hbr⟩
    cases l with
    | nil =>
      rw [treapMin] at hm
      cases hm
      constructor
      · simp [inorder]
      · intro x hx
        simp only [inorder, List.nil_append, List.mem_cons] at hx
        rcases hx with rfl | hx
        · exact le_refl _
        · exact le_of_lt (All_mem hr x hx)
    | node li lp ll lr =>
      rw [treapMin] at hm
      rcases ihl hbl hm with ⟨hmem, hle⟩
      constructor
      · rw [inorder, List.mem_append]
        exact Or.inl hmem
      · intro x hx
        rw [inorder, List.mem_append, List.mem_cons] at hx
        have hmi : key m < key i := All_mem hl m hmem
        rcases hx with hx | rfl | hx
        · exact hle x hx
        · exact le_of_lt hmi
        · exact le_of_lt (hmi.trans (All_mem hr x hx))

theorem treapMax_spec {key : ι → α} {n : GoNode ι} (hb : isBST key n)
    {m : ι} (hm : treapMax n = some m) :
    m ∈ inorder n ∧ ∀ x ∈ inorder n, key x ≤ key m := by
  induction n with
  | nil => simp [treapMax] at hm
  | node i p l r ihl ihr =>
    rcases hb with ⟨hl, hr, hbl, hbr⟩
    cases r with
    | nil =>
      rw [treapMax] at hm
      cases hm
      constructor
      · simp [inorder]
      · intro x hx
        simp only [inorder, List.mem_append, List.mem_cons] at hx
        rcases hx with hx | rfl | hx
        · exact le_of_lt (All_mem hl x hx)
        · exact le_refl _
        · simp [inorder] at hx
    | node ri rp rl rr =>
      rw [treapMax] at hm
      rcases ihr hbr hm with ⟨hmem, hle⟩
      constructor
      · rw [inorder, List.mem_append, List.mem_cons]
        exact Or.inr (Or.inr hmem)
      · intro x hx
        rw [inorder, List.mem_append, List.mem_cons] at hx
        have hmi : key i < key m := All_mem hr m hmem
        rcases hx with hx | rfl | hx
        · exact le_of_lt ((All_mem hl x hx).trans hmi)
        · exact le_of_lt hmi
        · exact hle x hx

/-! ## Ascending traversal refinement -/

theorem cmpKey_nonpos_iff (key : ι → α) (a b : ι) :
    cmpKey key a b ≤ 0 ↔ key a ≤ key b := by
  rw [le_iff_lt_or_eq, cmpKey_neg_iff, cmpKey_zero_iff, le_iff_lt_or_eq]

theorem runVisitor_append {σ : Type} (visitor : σ → ι → σ × Bool)
    (st : σ) (xs ys : List ι) :
    runVisitor visitor st (xs ++ ys) =
      seqRun (runVisitor visitor st xs)
        (fun st1 => runVisitor visitor st1 ys) := by
  induction xs generalizing st with
  | nil => simp [runVisitor, seqRun]
  | cons x xs ih =>
    rw [List.cons_append, runVisitor, runVisitor]
    rcases hv : visitor st x with ⟨st1, bv⟩
    cases bv with
    | false => simp [seqRun]
    | true =>
      dsimp only
      rw [ih st1]
      rcases hxs : runVisitor visitor st1 xs with ⟨st2, b2, v2⟩
      cases b2 with
      | false => simp [seqRun]
      | true =>
        rcases hys : runVisitor visitor st2 ys with ⟨st3, b3, v3⟩
        simp [seqRun, hys]

theorem visitAscend_eq {σ : Type} {key : ι → α} {n : GoNode ι}
    (hb : isBST key n) (pivot : ι) (visitor : σ → ι → σ × Bool) (st : σ) :
    visitAscend (cmpKey key) visitor pivot n st =
      runVisitor visitor st
        ((inorder n).filter (fun x => decide (key pivot ≤ key x))) := by
  induction n generalizing st with
  | nil => simp [visitAscend, inorder, runVisitor]
  | node i p l r ihl ihr =>
    rcases hb with ⟨hl, hr, hbl, hbr⟩
    rw [inorder, List.filter_append, List.filter_cons]
    by_cases hpi : key pivot ≤ key i
    · have hc : cmpKey key pivot i ≤ 0 := (cmpKey_nonpos_iff key pivot i).mpr hpi
      rw [visitAscend, if_pos hc, ihl hbl st,
        runVisitor_append, if_pos (by simpa using hpi)]
      rcases hrl : runVisitor visitor st _ with ⟨st1, b1, v1⟩
      cases b1 with
      | false => simp [seqRun]
      | true =>
        simp only [seqRun]
        rw [runVisitor]
        rcases hv : visitor st1 i with ⟨st2, bv⟩
        cases bv with
        | false => simp
        | true =>
          dsimp only
          rw [ihr hbr st2]
    · have hc : ¬ cmpKey key pivot i ≤ 0 := by
        rw [cmpKey_nonpos_iff]
        exact hpi
      have hfl : (inorder l).filter
          (fun x => decide (key pivot ≤ key x)) = [] := by
        rw [List.filter_eq_nil_iff]
        intro x hx
        simp only [decide_eq_true_eq]
        intro hcon
        exact hpi (le_of_lt (lt_of_le_of_lt hcon (All_mem hl x hx)))
      rw [visitAscend, if_neg hc, ihr hbr st, hfl,
        if_neg (by simpa using hpi), List.nil_append]

/-! ## The claims -/

/-- C1: the claim states persistence — every lookup against a version V1
performed after a later version is created returns the same result as
before, and no node reachable from a returned version ever has its item,
priority, left or right changed.  The code violates this: `Delete` returns
the old root and the split middle to the node pool (here the same node,
twice) while V1 still references it, and a later `Upsert`'s `newNode`
pops that slot and overwrites it in place.  Concretely: V1 =
Upsert(empty, 1, prio 10) has root slot 0 and Get 1 on V1 yields item 1;
V2 = Delete(V1, 1) pushes slot 0 onto the pool twice; V3 = Upsert(V2, 2,
prio 5) overwrites slot 0 with item 2; afterwards Get 1 against V1's
still-held root returns nil. -/
theorem claim1_persistence_code_bug :
    hUpsert 100 ⟨[], []⟩ none 1 10 =
      some (some 0, ⟨[⟨1, 10, none, none⟩], []⟩) ∧
    hGet 100 ⟨[⟨1, 10, none, none⟩], []⟩ (some 0) 1 = some (some 1) ∧
    hDelete 100 ⟨[⟨1, 10, none, none⟩], []⟩ (some 0) 1 =
      some (none, ⟨[⟨1, 10, none, none⟩], [some 0, some 0]⟩) ∧
    hUpsert 100 ⟨[⟨1, 10, none, none⟩], [some 0, some 0]⟩ none 2 5 =
      some (some 0, ⟨[⟨2, 5, none, none⟩], [some 0]⟩) ∧
    hGet 100 ⟨[⟨2, 5, none, none⟩], [some 0]⟩ (some 0) 1 = some none :=
  ⟨rfl, rfl, rfl, rfl, rfl⟩

/-- C2: the claim (and the comment above Upsert in treap.go) states that
re-upserting an existing key keeps the priority of the first insertion,
in particular when the new priority is higher.  The code keeps it only
when the existing priority is strictly larger: upserting key 1 with
priority 1 into the empty treap and then again with priority 2 leaves the
node holding key 1 with priority 2, because union lets the fresh `that`
node win whenever its priority is not smaller. -/
theorem claim2_priority_retention_code_bug :
    (((NewTreap (cmpKey (fun x : Int => x))).Upsert 1 1).Upsert 1 2).root =
      .node 1 2 .nil .nil := by
  show upsertRoot (cmpKey (fun x : Int => x))
      (upsertRoot (cmpKey (fun x : Int => x)) .nil 1 1) 1 2 = _
  rw [show upsertRoot (cmpKey (fun x : Int => x)) .nil 1 1 =
      .node 1 1 .nil .nil from union_nil_left _ _]
  rw [upsertRoot, union_le (by norm_num)]
  rw [show (split (cmpKey (fun x : Int => x)) (.node 1 1 .nil .nil) 1) =
      (.nil, .node 1 1 .nil .nil, .nil) from by decide]
  rw [show (((.nil, .node 1 1 .nil .nil, .nil) :
      GoNode Int × GoNode Int × GoNode Int)).1 = .nil from rfl,
    show (((.nil, .node 1 1 .nil .nil, .nil) :
      GoNode Int × GoNode Int × GoNode Int)).2.2 = .nil from rfl,
    union_nil_left]

/-- C3: for every version produced from NewTreap by any sequence of
Upsert and Delete operations under a lawful comparison, every node's left
subtree items compare strictly below its item, right subtree items
strictly above, and its priority is at least both children's. -/
theorem claim3_structural_invariants (key : ι → α) (n : GoNode ι)
    (h : Produced (cmpKey key) n) :
    isBST key n ∧ isHeap n :=
  Produced_isBST_isHeap h

/-- Witness for C3: one Upsert on the empty treap. -/
theorem claim3_witness :
    Produced (cmpKey (fun x : Int => x))
        (upsertRoot (cmpKey (fun x : Int => x)) .nil 1 5) ∧
      isBST (fun x : Int => x)
        (upsertRoot (cmpKey (fun x : Int => x)) .nil 1 5) ∧
      isHeap (upsertRoot (cmpKey (fun x : Int => x)) .nil 1 5) :=
  ⟨Produced.ups .nil 1 5 Produced.new,
    (claim3_structural_invariants _ _ (Produced.ups .nil 1 5 Produced.new)).1,
    (claim3_structural_invariants _ _ (Produced.ups .nil 1 5 Produced.new)).2⟩

/-- C4: for trees satisfying the treap invariants under the same
comparison, a key is present in the union exactly when it is present in
either input, and on a key present in both the stored item is the one
from `that` (the second argument), not the one from `this`. -/
theorem claim4_union_keyset_precedence (key : ι → α) (a b : GoNode ι)
    (ha : isBST key a ∧ isHeap a) (hb : isBST key b ∧ isHeap b) (k : α) :
    ((lookup key k (union (cmpKey key) a b)).isSome ↔
      (lookup key k a).isSome ∨ (lookup key k b).isSome) ∧
    (∀ x y, lookup key k a = some x → lookup key k b = some y →
      lookup key k (union (cmpKey key) a b) = some y) := by
  have hm := union_lookup a b ha.1 hb.1 k
  constructor
  · rw [hm]
    cases lookup key k b <;> cases lookup key k a <;> simp [orElseO]
  · intro x y hx hy
    rw [hm, hy]
    rfl

/-- Witness for C4: singleton treaps with compare-equal but distinct
items. -/
theorem claim4_witness :
    (isBST (Prod.fst : Int × Int → Int)
        (.node (1, 10) 5 .nil .nil : GoNode (Int × Int)) ∧
      isHeap (.node (1, 10) 5 .nil .nil : GoNode (Int × Int))) ∧
    (isBST (Prod.fst : Int × Int → Int)
        (.node (1, 20) 7 .nil .nil : GoNode (Int × Int)) ∧
      isHeap (.node (1, 20) 7 .nil .nil : GoNode (Int × Int))) ∧
    (((lookup (Prod.fst : Int × Int → Int) 1
        (union (cmpKey (Prod.fst : Int × Int → Int))
          (.node (1, 10) 5 .nil .nil) (.node (1, 20) 7 .nil .nil))).isSome ↔
      (lookup (Prod.fst : Int × Int → Int) 1
        (.node (1, 10) 5 .nil .nil : GoNode (Int × Int))).isSome ∨
      (lookup (Prod.fst : Int × Int → Int) 1
        (.node (1, 20) 7 .nil .nil : GoNode (Int × Int))).isSome) ∧
    (∀ x y,
      lookup (Prod.fst : Int × Int → Int) 1
        (.node (1, 10) 5 .nil .nil : GoNode (Int × Int)) = some x →
      lookup (Prod.fst : Int × Int → Int) 1
        (.node (1, 20) 7 .nil .nil : GoNode (Int × Int)) = some y →
      lookup (Prod.fst : Int × Int → Int) 1
        (union (cmpKey (Prod.fst : Int × Int → Int))
          (.node (1, 10) 5 .nil .nil) (.node (1, 20) 7 .nil .nil)) =
        some y)) :=
  ⟨⟨by decide, by decide⟩, ⟨by decide, by decide⟩,
    claim4_union_keyset_precedence (Prod.fst : Int × Int → Int) _ _
      ⟨by decide, by decide⟩ ⟨by decide, by decide⟩ 1⟩

/-- C5 counterexample: the claim says the new root's item is this.item
even when the split middle is present.  With this = node (1,0) prio 10 and
that = node (1,99) prio 5 under first-component comparison, the root of
the union carries the middle's item (1,99) from that, not this.item
(1,0). -/
theorem claim5_counterexample :
    union (cmpKey (Prod.fst : Int × Int → Int)) (.node (1, 0) 10 .nil .nil)
        (.node (1, 99) 5 .nil .nil) = .node (1, 99) 10 .nil .nil ∧
    rootItem (union (cmpKey (Prod.fst : Int × Int → Int))
        (.node (1, 0) 10 .nil .nil) (.node (1, 99) 5 .nil .nil)) ≠
      some ((1, 0) : Int × Int) := by
  have hm : (split (cmpKey (Prod.fst : Int × Int → Int))
      (.node (1, 99) 5 .nil .nil) ((1, 0) : Int × Int)).2.1 =
      .node (1, 99) 5 .nil .nil := by decide
  have he : union (cmpKey (Prod.fst : Int × Int → Int))
      (.node (1, 0) 10 .nil .nil) (.node (1, 99) 5 .nil .nil) =
      .node (1, 99) 10 .nil .nil := by
    rw [union_gt_mid (by norm_num) hm, union_nil_left, union_nil_left]
    decide
  exact ⟨he, by rw [he]; decide⟩

/-- C5 amended: whenever this.priority exceeds that.priority, that is
split at this.item and the new root keeps this.priority with children
Union(this.left, left) and Union(this.right, right); its item is
this.item when the middle is absent, and the middle's item (the
compare-equal item from that) when the middle is present. -/
theorem claim5_union_gt_branch (cmp : ι → ι → Int) (p tp : Int)
    (i ti : ι) (l r tl tr : GoNode ι) (h : p > tp) :
    union cmp (.node i p l r) (.node ti tp tl tr) =
      .node
        (match (split cmp (.node ti tp tl tr) i).2.1 with
          | .nil => i
          | .node mi _ _ _ => mi) p
        (union cmp l (split cmp (.node ti tp tl tr) i).1)
        (union cmp r (split cmp (.node ti tp tl tr) i).2.2) := by
  cases hm : (split cmp (.node ti tp tl tr) i).2.1 with
  | nil => rw [union_gt_nil h hm]
  | node mi mp ml mr => rw [union_gt_mid h hm]

/-- Witness for C5 amended at concrete trees with a present middle. -/
theorem claim5_witness :
    ((10 : Int) > 5) ∧
    union (cmpKey (Prod.fst : Int × Int → Int)) (.node (1, 2) 10 .nil .nil)
        (.node (1, 99) 5 .nil .nil) =
      .node
        (match (split (cmpKey (Prod.fst : Int × Int → Int))
            (.node (1, 99) 5 .nil .nil) ((1, 2) : Int × Int)).2.1 with
          | .nil => ((1, 2) : Int × Int)
          | .node mi _ _ _ => mi) 10
        (union (cmpKey (Prod.fst : Int × Int → Int)) .nil
          (split (cmpKey (Prod.fst : Int × Int → Int))
            (.node (1, 99) 5 .nil .nil) ((1, 2) : Int × Int)).1)
        (union (cmpKey (Prod.fst : Int × Int → Int)) .nil
          (split (cmpKey (Prod.fst : Int × Int → Int))
            (.node (1, 99) 5 .nil .nil) ((1, 2) : Int × Int)).2.2) :=
  ⟨by norm_num,
    claim5_union_gt_branch (cmpKey (Prod.fst : Int × Int → Int)) 10 5
      (1, 2) (1, 99) .nil .nil .nil .nil (by norm_num)⟩

/-- C6: split partitions a valid treap at the pivot: the left part's
items are exactly those strictly below the pivot key (in order), the
right part's exactly those strictly above, the middle is exactly the
BST-search result at the pivot key (the compare-equal node's item when
present, nil otherwise), and the empty tree splits into
(empty, nil, empty). -/
theorem claim6_split_partition (key : ι → α) (n : GoNode ι) (s : ι)
    (hb : isBST key n ∧ isHeap n) :
    inorder (split (cmpKey key) n s).1 =
      (inorder n).filter (fun x => decide (key x < key s)) ∧
    inorder (split (cmpKey key) n s).2.2 =
      (inorder n).filter (fun x => decide (key s < key x)) ∧
    rootItem (split (cmpKey key) n s).2.1 = lookup key (key s) n ∧
    split (cmpKey key) (.nil : GoNode ι) s = (.nil, .nil, .nil) :=
  ⟨split_inorder_left s hb.1, split_inorder_right s hb.1,
    split_middle key n s, rfl⟩

/-- Witness for C6 at a three-node treap split at its root key. -/
theorem claim6_witness :
    (isBST (fun x : Int => x)
        (.node 2 9 (.node 1 5 .nil .nil) (.node 3 1 .nil .nil)) ∧
      isHeap (.node 2 9 (.node 1 5 .nil .nil) (.node 3 1 .nil .nil) :
        GoNode Int)) ∧
    inorder (split (cmpKey (fun x : Int => x))
        (.node 2 9 (.node 1 5 .nil .nil) (.node 3 1 .nil .nil)) 2).1 =
      (inorder (.node 2 9 (.node 1 5 .nil .nil) (.node 3 1 .nil .nil) :
        GoNode Int)).filter (fun x => decide (x < 2)) ∧
    inorder (split (cmpKey (fun x : Int => x))
        (.node 2 9 (.node 1 5 .nil .nil) (.node 3 1 .nil .nil)) 2).2.2 =
      (inorder (.node 2 9 (.node 1 5 .nil .nil) (.node 3 1 .nil .nil) :
        GoNode Int)).filter (fun x => decide (2 < x)) ∧
    rootItem (split (cmpKey (fun x : Int => x))
        (.node 2 9 (.node 1 5 .nil .nil) (.node 3 1 .nil .nil)) 2).2.1 =
      lookup (fun x : Int => x) 2
        (.node 2 9 (.node 1 5 .nil .nil) (.node 3 1 .nil .nil)) ∧
    split (cmpKey (fun x : Int => x)) (.nil : GoNode Int) 2 =
      (.nil, .nil, .nil) :=
  ⟨⟨by decide, by decide⟩,
    claim6_split_partition (fun x : Int => x) _ 2 ⟨by decide, by decide⟩⟩

/-- C7: Delete on a valid version removes exactly the target key: for
every key, lookup in the deleted version is absent at the target key and
unchanged elsewhere; in particular deleting an absent key returns a
version with the identical key set. -/
theorem claim7_delete_semantics (key : ι → α) (t : Treap ι) (target : ι)
    (hc : t.compare = cmpKey key) (hb : isBST key t.root) :
    (∀ k, lookup key k (t.Delete target).root =
      if k = key target then none else lookup key k t.root) ∧
    (t.Get target = none →
      ∀ k, lookup key k (t.Delete target).root = lookup key k t.root) := by
  have hroot : (t.Delete target).root =
      deleteRoot (cmpKey key) t.root target := by
    rw [show (t.Delete target).root = deleteRoot t.compare t.root target
      from rfl, hc]
  constructor
  · intro k
    rw [hroot, deleteRoot_lookup target hb k]
  · intro habs k
    have habs2 : lookup key (key target) t.root = none := by
      rw [show t.Get target = get t.compare target t.root from rfl, hc,
        get_eq_lookup] at habs
      exact habs
    rw [hroot, deleteRoot_lookup target hb k]
    by_cases hk : k = key target
    · rw [if_pos hk, hk, habs2]
    · rw [if_neg hk]

/-- Witness for C7: deleting the absent key 5 from a two-key treap. -/
theorem claim7_witness :
    (Treap.mk (cmpKey (fun x : Int => x))
        (.node 2 9 (.node 1 5 .nil .nil) .nil)).compare =
      cmpKey (fun x : Int => x) ∧
    isBST (fun x : Int => x) (.node 2 9 (.node 1 5 .nil .nil) .nil) ∧
    (∀ k, lookup (fun x : Int => x) k
        ((Treap.mk (cmpKey (fun x : Int => x))
          (.node 2 9 (.node 1 5 .nil .nil) .nil)).Delete 5).root =
      if k = 5 then none
      else lookup (fun x : Int => x) k
        (.node 2 9 (.node 1 5 .nil .nil) .nil)) ∧
    ((Treap.mk (cmpKey (fun x : Int => x))
        (.node 2 9 (.node 1 5 .nil .nil) .nil)).Get 5 = none →
      ∀ k, lookup (fun x : Int => x) k
          ((Treap.mk (cmpKey (fun x : Int => x))
            (.node 2 9 (.node 1 5 .nil .nil) .nil)).Delete 5).root =
        lookup (fun x : Int => x) k
          (.node 2 9 (.node 1 5 .nil .nil) .nil)) := by
  refine ⟨rfl, by decide, ?_⟩
  exact claim7_delete_semantics (fun x : Int => x) _ 5 rfl (by decide)

/-- C8: on a valid version, VisitAscend runs the visitor over exactly the
items comparing at least the pivot, in the strictly ascending key order
of the sorted filter of the version's items (`runVisitor` walks that list
in order and stops immediately after the first visitor call that returns
false, so no further calls are made after an early termination). -/
theorem claim8_visit_ascend {σ : Type} (key : ι → α) (t : Treap ι)
    (pivot : ι) (visitor : σ → ι → σ × Bool) (st : σ)
    (hc : t.compare = cmpKey key) (hb : isBST key t.root) :
    t.VisitAscend pivot visitor st =
      runVisitor visitor st
        ((inorder t.root).filter (fun x => decide (key pivot ≤ key x))) ∧
    ((inorder t.root).filter
        (fun x => decide (key pivot ≤ key x))).Pairwise
      (fun a b => key a < key b) := by
  constructor
  · rw [show t.VisitAscend pivot visitor st =
        visitAscend t.compare visitor pivot t.root st from rfl, hc]
    exact visitAscend_eq hb pivot visitor st
  · exact (isBST_iff_pairwise.mp hb).filter _

/-- Witness for C8: collecting traversal from pivot 2 on a three-node
version. -/
theorem claim8_witness :
    (Treap.mk (cmpKey (fun x : Int => x))
        (.node 2 9 (.node 1 5 .nil .nil) (.node 3 1 .nil .nil))).compare =
      cmpKey (fun x : Int => x) ∧
    isBST (fun x : Int => x)
      (.node 2 9 (.node 1 5 .nil .nil) (.node 3 1 .nil .nil)) ∧
    (Treap.mk (cmpKey (fun x : Int => x))
        (.node 2 9 (.node 1 5 .nil .nil) (.node 3 1 .nil .nil))).VisitAscend
        2 (fun (u : Unit) _ => (u, true)) () =
      runVisitor (fun (u : Unit) _ => (u, true)) ()
        ((inorder (.node 2 9 (.node 1 5 .nil .nil) (.node 3 1 .nil .nil) :
          GoNode Int)).filter (fun x => decide ((2 : Int) ≤ x))) ∧
    ((inorder (.node 2 9 (.node 1 5 .nil .nil) (.node 3 1 .nil .nil) :
        GoNode Int)).filter (fun x => decide ((2 : Int) ≤ x))).Pairwise
      (fun a b => a < b) := by
  refine ⟨rfl, by decide, ?_⟩
  exact claim8_visit_ascend (fun x : Int => x) _ 2
    (fun (u : Unit) _ => (u, true)) () rfl (by decide)

/-- C9: upserting a key absent from a valid version and then deleting it
yields a version on which every Get returns exactly what it returned on
the original version. -/
theorem claim9_roundtrip (key : ι → α) (t : Treap ι) (k : ι) (p : Int)
    (hc : t.compare = cmpKey key) (hb : isBST key t.root)
    (habs : t.Get k = none) :
    ∀ probe : ι, ((t.Upsert k p).Delete k).Get probe = t.Get probe := by
  intro probe
  have hub : isBST key (upsertRoot (cmpKey key) t.root k p) :=
    upsertRoot_isBST k p hb
  have habs2 : lookup key (key k) t.root = none := by
    rw [show t.Get k = get t.compare k t.root from rfl, hc,
      get_eq_lookup] at habs
    exact habs
  rw [show ((t.Upsert k p).Delete k).Get probe =
      get t.compare probe
        (deleteRoot t.compare (upsertRoot t.compare t.root k p) k)
      from rfl, hc, get_eq_lookup,
    deleteRoot_lookup k hub (key probe),
    show t.Get probe = get t.compare probe t.root from rfl, hc,
    get_eq_lookup]
  by_cases hk : key probe = key k
  · rw [if_pos hk, hk, habs2]
  · rw [if_neg hk, upsertRoot_lookup k p hb, if_neg hk]

/-- Witness for C9: round trip of key 1 through a singleton treap holding
key 2. -/
theorem claim9_witness :
    (Treap.mk (cmpKey (fun x : Int => x))
        (.node 2 9 .nil .nil)).compare = cmpKey (fun x : Int => x) ∧
    isBST (fun x : Int => x) (.node 2 9 .nil .nil) ∧
    (Treap.mk (cmpKey (fun x : Int => x)) (.node 2 9 .nil .nil)).Get 1 =
      none ∧
    (∀ probe : Int,
      (((Treap.mk (cmpKey (fun x : Int => x))
          (.node 2 9 .nil .nil)).Upsert 1 5).Delete 1).Get probe =
        (Treap.mk (cmpKey (fun x : Int => x))
          (.node 2 9 .nil .nil)).Get probe) := by
  refine ⟨rfl, by decide, by decide, ?_⟩
  exact claim9_roundtrip (fun x : Int => x) _ 1 5 rfl (by decide) (by decide)

/-- C10: on a valid version, Min yields the item with the least key and
Max the item with the greatest key (nil exactly on the empty treap), and
Get returns the stored item whose key equals the target's key when one
exists and nil otherwise; all three are total functions of the tree in
this embedding, mutating and allocating nothing. -/
theorem claim10_point_queries (key : ι → α) (t : Treap ι)
    (hc : t.compare = cmpKey key) (hb : isBST key t.root) :
    (t.Min = none ↔ t.root = .nil) ∧
    (∀ m, t.Min = some m →
      m ∈ inorder t.root ∧ ∀ x ∈ inorder t.root, key m ≤ key x) ∧
    (t.Max = none ↔ t.root = .nil) ∧
    (∀ m, t.Max = some m →
      m ∈ inorder t.root ∧ ∀ x ∈ inorder t.root, key x ≤ key m) ∧
    (∀ target x, t.Get target = some x ↔
      x ∈ inorder t.root ∧ key x = key target) ∧
    (∀ target, t.Get target = none ↔
      ∀ x ∈ inorder t.root, key x ≠ key target) := by
  refine ⟨treapMin_eq_none_iff, fun m hm => treapMin_spec hb hm,
    treapMax_eq_none_iff, fun m hm => treapMax_spec hb hm,
    fun target x => ?_, fun target => ?_⟩
  · rw [show t.Get target = get t.compare target t.root from rfl, hc,
      get_eq_lookup]
    exact mem_lookup_iff hb
  · rw [show t.Get target = get t.compare target t.root from rfl, hc,
      get_eq_lookup]
    exact lookup_eq_none_iff hb

/-- Witness for C10 on a three-node version. -/
theorem claim10_witness :
    (Treap.mk (cmpKey (fun x : Int => x))
        (.node 2 9 (.node 1 5 .nil .nil) (.node 3 1 .nil .nil))).compare =
      cmpKey (fun x : Int => x) ∧
    isBST (fun x : Int => x)
      (.node 2 9 (.node 1 5 .nil .nil) (.node 3 1 .nil .nil)) ∧
    ((Treap.mk (cmpKey (fun x : Int => x))
        (.node 2 9 (.node 1 5 .nil .nil) (.node 3 1 .nil .nil))).Min =
        none ↔
      (.node 2 9 (.node 1 5 .nil .nil) (.node 3 1 .nil .nil) :
        GoNode Int) = .nil) ∧
    (∀ m, (Treap.mk (cmpKey (fun x : Int => x))
        (.node 2 9 (.node 1 5 .nil .nil) (.node 3 1 .nil .nil))).Min =
          some m →
      m ∈ inorder (.node 2 9 (.node 1 5 .nil .nil) (.node 3 1 .nil .nil) :
        GoNode Int) ∧
      ∀ x ∈ inorder (.node 2 9 (.node 1 5 .nil .nil)
        (.node 3 1 .nil .nil) : GoNode Int), m ≤ x) := by
  refine ⟨rfl, by decide, ?_, ?_⟩
  · exact (claim10_point_queries (fun x : Int => x) _ rfl (by decide)).1
  · exact (claim10_point_queries (fun x : Int => x) _ rfl (by decide)).2.1

end Gtreap
